import Mathlib

/-!
Verification of the page-replacement simulator in `src/main.cpp`.

The repository implements two page-table policies:

* `fifo_table` keeps a `std::deque<int>` of resident pages in arrival order;
  `load_page` does a linear scan, and on a miss increments the fault counter,
  pushes the page on the back, and pops (and reports) the front once the size
  exceeds the capacity.
* `lru_table` keeps an `unordered_map<int, size_t>` from page to a recency
  counter; `load_page` inserts a missing page with counter 0 (bumping the
  fault counter), unconditionally zeroes the touched page's counter, ages
  every counter by one, and, once the size exceeds the capacity, erases the
  entry found by `std::max_element` over the counters.

We embed both classes shallowly: the deque becomes a `List Int` (head =
front), the unordered map becomes an association list `List (Int × Nat)`
(the C++ iteration order is unspecified; we fix insertion order, and prove
that the recency counters are pairwise distinct on reachable states, so the
eviction choice never depends on this ordering choice), `size_t` becomes
`Nat`, and the C++ `int` fault counter becomes `Int`.  `load_page` returns
the `std::pair<bool,int>` result (with the `-1` "no page evicted" sentinel
kept as in the source) together with the updated table.
-/

/-- Shallow embedding of the `fifo_table` class state: `_pageQueue`
(front of the deque = head of the list), `_capacity`, `_page_fault_count`. -/
structure fifo_table where
  pageQueue : List Int
  capacity : Nat
  page_fault_count : Int
  deriving Repr, DecidableEq

/-- The `fifo_table(size_t capacity)` constructor: empty queue, zero faults. -/
def fifo_table.init (capacity : Nat) : fifo_table :=
  { pageQueue := [], capacity := capacity, page_fault_count := 0 }

/-- `fifo_table::get_page_list`: a copy of the deque, front first. -/
def fifo_table.get_page_list (t : fifo_table) : List Int :=
  t.pageQueue

/-- `fifo_table::load_page`: if `page` is found by the linear scan the state
is untouched and `(false, -1)` is returned; otherwise the fault counter is
incremented, `page` is pushed on the back, and if the size now exceeds the
capacity the front element is popped and returned as the evicted page. -/
def fifo_table.load_page (t : fifo_table) (page : Int) : (Bool × Int) × fifo_table :=
  if page ∈ t.pageQueue then
    ((false, -1), t)
  else
    let t1 : fifo_table :=
      { t with pageQueue := t.pageQueue ++ [page],
               page_fault_count := t.page_fault_count + 1 }
    if t1.capacity < t1.pageQueue.length then
      ((true, t1.pageQueue.headD (-1)), { t1 with pageQueue := t1.pageQueue.tail })
    else
      ((true, -1), t1)

/-- `fifo_table::get_page_fault_count`. -/
def fifo_table.get_page_fault_count (t : fifo_table) : Int :=
  t.page_fault_count

/-- Run a fresh `fifo_table` of the given capacity over a reference string,
calling `load_page` once per page, as the driver in `main` does. -/
def fifo_run (cap : Nat) (ps : List Int) : fifo_table :=
  ps.foldl (fun t p => (t.load_page p).2) (fifo_table.init cap)

/-- Shallow embedding of the `lru_table` class state: `_pageMap` as an
association list from page to recency counter (`size_t`), `_capacity`,
`_page_fault_count`.  The iteration order of `std::unordered_map` is
unspecified; newly inserted pages are appended here, and the development
below shows the recency counters are pairwise distinct on reachable states,
so the eviction result is independent of this choice. -/
structure lru_table where
  pageMap : List (Int × Nat)
  capacity : Nat
  page_fault_count : Int
  deriving Repr, DecidableEq

/-- The `lru_table(size_t capacity)` constructor: empty map, zero faults. -/
def lru_table.init (capacity : Nat) : lru_table :=
  { pageMap := [], capacity := capacity, page_fault_count := 0 }

/-- `lru_table::get_page_list`: the keys of the map, in iteration order. -/
def lru_table.get_page_list (t : lru_table) : List Int :=
  t.pageMap.map Prod.fst

/-- `_pageMap.find(page) != _pageMap.end()`: key membership. -/
def mapFound (page : Int) (m : List (Int × Nat)) : Bool :=
  m.any (fun kvp => kvp.1 == page)

/-- `_pageMap[page] = 0`: set the touched page's counter to 0. -/
def setZero (page : Int) (m : List (Int × Nat)) : List (Int × Nat) :=
  m.map (fun kvp => if kvp.1 = page then (kvp.1, 0) else kvp)

/-- The `for(auto& keyValuePair : _pageMap) keyValuePair.second += 1;` pass:
age every counter by one. -/
def ageAll (m : List (Int × Nat)) : List (Int × Nat) :=
  m.map (fun kvp => (kvp.1, kvp.2 + 1))

/-- `if (miss) _pageMap.insert(make_pair(page, 0))`: insert the page with
counter 0 when it is absent. -/
def lru_insert (page : Int) (m : List (Int × Nat)) : List (Int × Nat) :=
  if mapFound page m then m else m ++ [(page, 0)]

/-- The whole map transformation performed by `lru_table::load_page` before
the eviction check: insert `(page, 0)` if absent, zero `page`'s counter,
then age every counter. -/
def lru_step_map (page : Int) (m : List (Int × Nat)) : List (Int × Nat) :=
  ageAll (setZero page (lru_insert page m))

/-- `std::max_element` with `comp = (max.second < kvp.second)`: the first
entry holding the maximum counter, or `none` on an empty map. -/
def maxElement : List (Int × Nat) → Option (Int × Nat)
  | [] => none
  | x :: xs => some (xs.foldl (fun mx kvp => if mx.2 < kvp.2 then kvp else mx) x)

/-- `lru_table::load_page`: on a miss bump the fault counter and insert the
page with counter 0; unconditionally zero the touched page's counter and age
every counter; if the size now exceeds the capacity, erase the entry found
by `max_element` and report its key as the evicted page. -/
def lru_table.load_page (t : lru_table) (page : Int) : (Bool × Int) × lru_table :=
  let found := mapFound page t.pageMap
  let fc := if found then t.page_fault_count else t.page_fault_count + 1
  let m := lru_step_map page t.pageMap
  if t.capacity < m.length then
    match maxElement m with
    | some e => ((!found, e.1), { t with pageMap := m.erase e, page_fault_count := fc })
    | none => ((!found, -1), { t with pageMap := m, page_fault_count := fc })
  else
    ((!found, -1), { t with pageMap := m, page_fault_count := fc })

/-- `lru_table::get_page_fault_count`. -/
def lru_table.get_page_fault_count (t : lru_table) : Int :=
  t.page_fault_count

/-- Run a fresh `lru_table` of the given capacity over a reference string. -/
def lru_run (cap : Nat) (ps : List Int) : lru_table :=
  ps.foldl (fun t p => (t.load_page p).2) (lru_table.init cap)

/-- The combined effect of the zeroing and aging passes on one entry. -/
def stepFun (page : Int) (kvp : Int × Nat) : Int × Nat :=
  if kvp.1 = page then (kvp.1, 1) else (kvp.1, kvp.2 + 1)

/-- The body of the `std::max_element` loop. -/
def maxStep (mx kvp : Int × Nat) : Int × Nat :=
  if mx.2 < kvp.2 then kvp else mx

/-- The state invariant of `lru_table` maintained by `load_page` from
construction: distinct keys, pairwise-distinct recency counters, every
counter at least 1, and at most `capacity` resident pages. -/
def lruInv (t : lru_table) : Prop :=
  (t.pageMap.map Prod.fst).Nodup ∧ (t.pageMap.map Prod.snd).Nodup ∧
    (∀ kvp ∈ t.pageMap, 1 ≤ kvp.2) ∧ t.pageMap.length ≤ t.capacity

theorem fifo_load_page_capacity (t : fifo_table) (p : Int) :
    ((t.load_page p).2).capacity = t.capacity := by
  unfold fifo_table.load_page
  split <;> [rfl; (dsimp only []; split <;> rfl)]

theorem fifo_load_page_count (t : fifo_table) (p : Int) :
    ((t.load_page p).2).page_fault_count =
      t.page_fault_count + (if p ∈ t.pageQueue then 0 else 1) := by
  unfold fifo_table.load_page
  split
  · simp [*]
  · dsimp only []
    split <;> simp [*]

theorem fifo_load_page_len (t : fifo_table) (p : Int)
    (h : t.pageQueue.length ≤ t.capacity) :
    ((t.load_page p).2).pageQueue.length ≤ t.capacity := by
  unfold fifo_table.load_page
  split
  · exact h
  · dsimp only []
    split
    · rename_i hlen
      simp only [List.length_tail, List.length_append, List.length_singleton]
      omega
    · rename_i hlen
      simp only [List.length_append, List.length_singleton] at *
      omega

theorem fifo_run_capacity (cap : Nat) (ps : List Int) :
    (fifo_run cap ps).capacity = cap := by
  suffices h : ∀ (l : List Int) (t : fifo_table),
      (l.foldl (fun t p => (t.load_page p).2) t).capacity = t.capacity by
    exact h ps (fifo_table.init cap)
  intro l
  induction l with
  | nil => intro t; rfl
  | cons q l ih =>
    intro t
    rw [List.foldl_cons, ih, fifo_load_page_capacity]

theorem fifo_run_len (cap : Nat) (ps : List Int) :
    (fifo_run cap ps).pageQueue.length ≤ cap := by
  suffices h : ∀ (l : List Int) (t : fifo_table), t.pageQueue.length ≤ t.capacity →
      (l.foldl (fun t p => (t.load_page p).2) t).pageQueue.length ≤
        (l.foldl (fun t p => (t.load_page p).2) t).capacity by
    have := h ps (fifo_table.init cap) (by simp [fifo_table.init])
    rwa [show (ps.foldl (fun t p => (t.load_page p).2) (fifo_table.init cap)) = fifo_run cap ps from rfl,
      fifo_run_capacity] at this
  intro l
  induction l with
  | nil => intro t ht; exact ht
  | cons q l ih =>
    intro t ht
    rw [List.foldl_cons]
    exact ih _ (by rw [fifo_load_page_capacity]; exact fifo_load_page_len t q ht)

theorem mapFound_iff (page : Int) (m : List (Int × Nat)) :
    mapFound page m = true ↔ page ∈ m.map Prod.fst := by
  simp [mapFound, List.any_eq_true, beq_iff_eq, List.mem_map]

theorem lru_step_map_eq (page : Int) (m : List (Int × Nat)) :
    lru_step_map page m = (lru_insert page m).map (stepFun page) := by
  unfold lru_step_map ageAll setZero stepFun
  rw [List.map_map]
  apply List.map_congr_left
  intro kvp _
  by_cases h : kvp.1 = page <;> simp [h, Function.comp]

theorem maxElement_eq_foldl (x : Int × Nat) (xs : List (Int × Nat)) :
    maxElement (x :: xs) = some (xs.foldl maxStep x) := by
  rfl

theorem foldlMax_mem (xs : List (Int × Nat)) (a : Int × Nat) :
    xs.foldl maxStep a = a ∨ xs.foldl maxStep a ∈ xs := by
  induction xs generalizing a with
  | nil => exact Or.inl rfl
  | cons y ys ih =>
    rw [List.foldl_cons]
    rcases ih (maxStep a y) with h | h
    · rw [h]
      unfold maxStep
      by_cases hc : a.2 < y.2
      · simp [hc]
      · simp [hc]
    · exact Or.inr (List.mem_cons_of_mem _ h)

theorem foldlMax_le (xs : List (Int × Nat)) (a : Int × Nat) :
    a.2 ≤ (xs.foldl maxStep a).2 ∧ ∀ y ∈ xs, y.2 ≤ (xs.foldl maxStep a).2 := by
  induction xs generalizing a with
  | nil => exact ⟨le_refl _, by simp⟩
  | cons y ys ih =>
    rw [List.foldl_cons]
    obtain ⟨h1, h2⟩ := ih (maxStep a y)
    have ha : a.2 ≤ (maxStep a y).2 := by unfold maxStep; split <;> omega
    have hy : y.2 ≤ (maxStep a y).2 := by unfold maxStep; split <;> omega
    exact ⟨le_trans ha h1, by
      intro z hz
      rcases List.mem_cons.mp hz with rfl | hz
      · exact le_trans hy h1
      · exact h2 z hz⟩

theorem maxElement_mem {l : List (Int × Nat)} {x : Int × Nat}
    (h : maxElement l = some x) : x ∈ l := by
  cases l with
  | nil => exact absurd h (by simp [maxElement])
  | cons a xs =>
    rw [maxElement_eq_foldl] at h
    injection h with h
    rcases foldlMax_mem xs a with hm | hm
    · rw [← h, hm]; exact List.mem_cons_self a xs
    · rw [← h]; exact List.mem_cons_of_mem _ hm

theorem maxElement_le {l : List (Int × Nat)} {x : Int × Nat}
    (h : maxElement l = some x) : ∀ y ∈ l, y.2 ≤ x.2 := by
  cases l with
  | nil => simp
  | cons a xs =>
    rw [maxElement_eq_foldl] at h
    injection h with h
    obtain ⟨h1, h2⟩ := foldlMax_le xs a
    intro y hy
    rcases List.mem_cons.mp hy with rfl | hy
    · rw [← h]; exact h1
    · rw [← h]; exact h2 y hy

theorem maxElement_isSome {l : List (Int × Nat)} (h : l ≠ []) :
    ∃ e, maxElement l = some e := by
  cases l with
  | nil => exact absurd rfl h
  | cons a xs => exact ⟨_, maxElement_eq_foldl a xs⟩

theorem lru_insert_keys_nodup (page : Int) (m : List (Int × Nat))
    (hkeys : (m.map Prod.fst).Nodup) :
    ((lru_insert page m).map Prod.fst).Nodup := by
  unfold lru_insert
  split
  · exact hkeys
  · rename_i hnf
    have hpage : page ∉ m.map Prod.fst := by
      intro hc
      exact hnf ((mapFound_iff page m).mpr hc)
    rw [List.map_append]
    simp only [List.map_cons, List.map_nil]
    rw [List.nodup_append]
    exact ⟨hkeys, List.nodup_singleton page, by
      intro a ha hb
      rw [List.mem_singleton] at hb
      subst hb
      exact hpage ha⟩

theorem lru_insert_mem_key (page : Int) (m : List (Int × Nat)) :
    page ∈ (lru_insert page m).map Prod.fst := by
  unfold lru_insert
  split
  · rename_i hf
    exact (mapFound_iff page m).mp hf
  · rw [List.map_append]
    simp

theorem lru_insert_other_mem (page : Int) (m : List (Int × Nat)) :
    ∀ x ∈ lru_insert page m, x.1 ≠ page → x ∈ m := by
  unfold lru_insert
  split
  · intro x hx _; exact hx
  · intro x hx hne
    rcases List.mem_append.mp hx with h | h
    · exact h
    · rw [List.mem_singleton] at h
      subst h
      exact absurd rfl hne

theorem lru_insert_snd_nodup (page : Int) (m : List (Int × Nat))
    (hsnd : (m.map Prod.snd).Nodup) (hpos : ∀ kvp ∈ m, 1 ≤ kvp.2) :
    ((lru_insert page m).map Prod.snd).Nodup := by
  unfold lru_insert
  split
  · exact hsnd
  · rw [List.map_append]
    simp only [List.map_cons, List.map_nil]
    rw [List.nodup_append]
    exact ⟨hsnd, List.nodup_singleton 0, by
      intro a ha hb
      rw [List.mem_singleton] at hb
      subst hb
      obtain ⟨kvp, hk, he⟩ := List.mem_map.mp ha
      have := hpos kvp hk
      omega⟩

theorem lru_insert_length (page : Int) (m : List (Int × Nat)) :
    (lru_insert page m).length =
      if mapFound page m then m.length else m.length + 1 := by
  unfold lru_insert
  split <;> simp [*]

theorem lru_step_map_keys (page : Int) (m : List (Int × Nat)) :
    (lru_step_map page m).map Prod.fst = (lru_insert page m).map Prod.fst := by
  rw [lru_step_map_eq, List.map_map]
  apply List.map_congr_left
  intro kvp _
  unfold stepFun
  simp only [Function.comp]
  split <;> rfl

theorem lru_step_map_length (page : Int) (m : List (Int × Nat)) :
    (lru_step_map page m).length = (lru_insert page m).length := by
  rw [lru_step_map_eq, List.length_map]

theorem lru_step_map_mem_page (page : Int) (m : List (Int × Nat)) :
    (page, 1) ∈ lru_step_map page m := by
  rw [lru_step_map_eq]
  obtain ⟨x, hx, he⟩ := List.mem_map.mp (lru_insert_mem_key page m)
  refine List.mem_map.mpr ⟨x, hx, ?_⟩
  unfold stepFun
  rw [he]
  simp

theorem lru_step_map_pos (page : Int) (m : List (Int × Nat)) :
    ∀ kvp ∈ lru_step_map page m, 1 ≤ kvp.2 := by
  rw [lru_step_map_eq]
  intro kvp hk
  obtain ⟨x, _, he⟩ := List.mem_map.mp hk
  subst he
  unfold stepFun
  split <;> simp

theorem lru_step_map_ge_two (page : Int) (m : List (Int × Nat))
    (hpos : ∀ kvp ∈ m, 1 ≤ kvp.2) :
    ∀ kvp ∈ lru_step_map page m, kvp.1 ≠ page → 2 ≤ kvp.2 := by
  rw [lru_step_map_eq]
  intro kvp hk hne
  obtain ⟨x, hx, he⟩ := List.mem_map.mp hk
  subst he
  unfold stepFun at hne ⊢
  by_cases h : x.1 = page
  · simp [h] at hne
  · simp only [h, if_false]
    have := hpos x (lru_insert_other_mem page m x hx h)
    simp
    omega

theorem lru_step_map_snd_nodup (page : Int) (m : List (Int × Nat))
    (hkeys : (m.map Prod.fst).Nodup) (hsnd : (m.map Prod.snd).Nodup)
    (hpos : ∀ kvp ∈ m, 1 ≤ kvp.2) :
    ((lru_step_map page m).map Prod.snd).Nodup := by
  rw [lru_step_map_eq, List.map_map]
  have hik : ((lru_insert page m).map Prod.fst).Nodup :=
    lru_insert_keys_nodup page m hkeys
  have his : ((lru_insert page m).map Prod.snd).Nodup :=
    lru_insert_snd_nodup page m hsnd hpos
  have hnd : (lru_insert page m).Nodup := List.Nodup.of_map Prod.fst hik
  apply List.Nodup.map_on ?_ hnd
  intro x hx y hy hxy
  simp only [Function.comp] at hxy
  unfold stepFun at hxy
  by_cases hx1 : x.1 = page <;> by_cases hy1 : y.1 = page
  · exact List.inj_on_of_nodup_map hik hx hy (hx1.trans hy1.symm)
  · exfalso
    simp only [hx1, hy1, if_true, if_false] at hxy
    have := hpos y (lru_insert_other_mem page m y hy hy1)
    omega
  · exfalso
    simp only [hx1, hy1, if_true, if_false] at hxy
    have := hpos x (lru_insert_other_mem page m x hx hx1)
    omega
  · simp only [hx1, hy1, if_false] at hxy
    have hxy2 : x.2 = y.2 := by omega
    exact List.inj_on_of_nodup_map his hx hy hxy2

theorem lruInv_init (cap : Nat) : lruInv (lru_table.init cap) := by
  refine ⟨List.nodup_nil, List.nodup_nil, ?_, ?_⟩ <;> simp [lru_table.init]

theorem lru_load_page_capacity (t : lru_table) (p : Int) :
    ((t.load_page p).2).capacity = t.capacity := by
  unfold lru_table.load_page
  dsimp only []
  split
  · split <;> rfl
  · rfl

theorem lru_load_page_count (t : lru_table) (p : Int) :
    ((t.load_page p).2).page_fault_count =
      t.page_fault_count + (if p ∈ t.pageMap.map Prod.fst then 0 else 1) := by
  unfold lru_table.load_page
  dsimp only []
  by_cases hf : mapFound p t.pageMap
  · have hm : p ∈ t.pageMap.map Prod.fst := (mapFound_iff p t.pageMap).mp hf
    split
    · split <;> simp [hf, hm]
    · simp [hf, hm]
  · have hm : p ∉ t.pageMap.map Prod.fst := fun hc => hf ((mapFound_iff p t.pageMap).mpr hc)
    split
    · split <;> simp [hf, hm]
    · simp [hf, hm]

theorem lru_load_page_inv (t : lru_table) (p : Int) (h : lruInv t) :
    lruInv (t.load_page p).2 := by
  obtain ⟨hkeys, hsnd, hpos, hlen⟩ := h
  have hk' : ((lru_step_map p t.pageMap).map Prod.fst).Nodup := by
    rw [lru_step_map_keys]
    exact lru_insert_keys_nodup p t.pageMap hkeys
  have hs' : ((lru_step_map p t.pageMap).map Prod.snd).Nodup :=
    lru_step_map_snd_nodup p t.pageMap hkeys hsnd hpos
  have hp' : ∀ kvp ∈ lru_step_map p t.pageMap, 1 ≤ kvp.2 :=
    lru_step_map_pos p t.pageMap
  have hl' : (lru_step_map p t.pageMap).length ≤ t.pageMap.length + 1 := by
    rw [lru_step_map_length, lru_insert_length]
    split <;> omega
  unfold lru_table.load_page
  dsimp only []
  split
  · rename_i hov
    have hne : lru_step_map p t.pageMap ≠ [] := by
      intro hc
      rw [hc] at hov
      simp at hov
    obtain ⟨e, he⟩ := maxElement_isSome hne
    rw [he]
    have hem : e ∈ lru_step_map p t.pageMap := maxElement_mem he
    have hsub := List.erase_sublist e (lru_step_map p t.pageMap)
    refine ⟨hk'.sublist (hsub.map Prod.fst), hs'.sublist (hsub.map Prod.snd), ?_, ?_⟩
    · intro kvp hk
      exact hp' kvp (List.mem_of_mem_erase hk)
    · show ((lru_step_map p t.pageMap).erase e).length ≤ t.capacity
      rw [List.length_erase_of_mem hem]
      omega
  · rename_i hov
    refine ⟨hk', hs', hp', ?_⟩
    show (lru_step_map p t.pageMap).length ≤ t.capacity
    omega

theorem lru_run_capacity (cap : Nat) (ps : List Int) :
    (lru_run cap ps).capacity = cap := by
  suffices h : ∀ (l : List Int) (t : lru_table),
      (l.foldl (fun t p => (t.load_page p).2) t).capacity = t.capacity by
    exact h ps (lru_table.init cap)
  intro l
  induction l with
  | nil => intro t; rfl
  | cons q l ih =>
    intro t
    rw [List.foldl_cons, ih, lru_load_page_capacity]

theorem lru_run_inv (cap : Nat) (ps : List Int) : lruInv (lru_run cap ps) := by
  suffices h : ∀ (l : List Int) (t : lru_table), lruInv t →
      lruInv (l.foldl (fun t p => (t.load_page p).2) t) by
    exact h ps (lru_table.init cap) (lruInv_init cap)
  intro l
  induction l with
  | nil => intro t ht; exact ht
  | cons q l ih =>
    intro t ht
    rw [List.foldl_cons]
    exact ih _ (lru_load_page_inv t q ht)

theorem lru_insert_of_found (page : Int) (m : List (Int × Nat))
    (hf : mapFound page m = true) : lru_insert page m = m := by
  unfold lru_insert
  simp [hf]

theorem lru_load_page_hit (t : lru_table) (p : Int)
    (hmem : p ∈ t.pageMap.map Prod.fst) (hlen : t.pageMap.length ≤ t.capacity) :
    t.load_page p = ((false, -1), { t with pageMap := lru_step_map p t.pageMap }) := by
  have hf : mapFound p t.pageMap = true := (mapFound_iff p t.pageMap).mpr hmem
  have hml : (lru_step_map p t.pageMap).length = t.pageMap.length := by
    rw [lru_step_map_length, lru_insert_of_found p t.pageMap hf]
  unfold lru_table.load_page
  dsimp only []
  rw [hf]
  split
  · rename_i hov
    rw [hml] at hov
    omega
  · rfl

theorem lru_load_page_of_lt (t : lru_table) (p : Int)
    (hov : t.capacity < (lru_step_map p t.pageMap).length)
    (e : Int × Nat) (he : maxElement (lru_step_map p t.pageMap) = some e) :
    t.load_page p = ((!(mapFound p t.pageMap), e.1),
      { t with pageMap := (lru_step_map p t.pageMap).erase e,
               page_fault_count :=
                 if mapFound p t.pageMap then t.page_fault_count
                 else t.page_fault_count + 1 }) := by
  unfold lru_table.load_page
  dsimp only []
  rw [if_pos hov, he]

theorem lru_load_page_of_le (t : lru_table) (p : Int)
    (hov : ¬ t.capacity < (lru_step_map p t.pageMap).length) :
    t.load_page p = ((!(mapFound p t.pageMap), -1),
      { t with pageMap := lru_step_map p t.pageMap,
               page_fault_count :=
                 if mapFound p t.pageMap then t.page_fault_count
                 else t.page_fault_count + 1 }) := by
  unfold lru_table.load_page
  dsimp only []
  rw [if_neg hov]

theorem maxElement_unique {l : List (Int × Nat)} {e : Int × Nat}
    (hsnd : (l.map Prod.snd).Nodup) (he : maxElement l = some e) :
    ∀ y ∈ l, y ≠ e → y.2 < e.2 := by
  intro y hy hne
  have hle := maxElement_le he y hy
  rcases Nat.lt_or_ge y.2 e.2 with h | h
  · exact h
  · exfalso
    have heq : y.2 = e.2 := le_antisymm hle h
    exact hne (List.inj_on_of_nodup_map hsnd hy (maxElement_mem he) heq)

theorem exists_key_ne (m : List (Int × Nat)) (h2 : 2 ≤ m.length)
    (hk : (m.map Prod.fst).Nodup) (p : Int) : ∃ z ∈ m, z.1 ≠ p := by
  match m, h2 with
  | a :: b :: rest, _ =>
    have hab : a.1 ≠ b.1 := by
      simp only [List.map_cons, List.nodup_cons, List.mem_cons] at hk
      intro hc
      exact hk.1 (Or.inl hc)
    by_cases ha : a.1 = p
    · exact ⟨b, List.mem_cons_of_mem _ (List.mem_cons_self b rest), by
        rw [← ha]; exact fun hc => hab hc.symm⟩
    · exact ⟨a, List.mem_cons_self a _, ha⟩

theorem lru_step_map_keys_of_found (p : Int) (m : List (Int × Nat))
    (hf : mapFound p m = true) :
    (lru_step_map p m).map Prod.fst = m.map Prod.fst := by
  rw [lru_step_map_keys, lru_insert_of_found p m hf]

theorem fifo_load_page_cap0 (t : fifo_table) (p : Int)
    (hc : t.capacity = 0) (hq : t.pageQueue = []) :
    t.load_page p = ((true, p),
      { t with pageQueue := [], page_fault_count := t.page_fault_count + 1 }) := by
  unfold fifo_table.load_page
  rw [hq]
  simp [hc]

theorem lru_load_page_cap0 (t : lru_table) (p : Int)
    (hc : t.capacity = 0) (hm : t.pageMap = []) :
    t.load_page p = ((true, p),
      { t with pageMap := [], page_fault_count := t.page_fault_count + 1 }) := by
  have hstep : lru_step_map p t.pageMap = [(p, 1)] := by
    rw [hm]
    simp [lru_step_map, lru_insert, mapFound, setZero, ageAll]
  have hfound : mapFound p t.pageMap = false := by
    rw [hm]
    rfl
  have hov : t.capacity < (lru_step_map p t.pageMap).length := by
    rw [hstep, hc]
    simp
  have hmax : maxElement (lru_step_map p t.pageMap) = some (p, 1) := by
    rw [hstep]
    rfl
  rw [lru_load_page_of_lt t p hov (p, 1) hmax, hfound, hstep]
  simp [List.erase]

theorem fifo_run_cap0 (ps : List Int) :
    (fifo_run 0 ps).capacity = 0 ∧ (fifo_run 0 ps).pageQueue = [] := by
  refine ⟨fifo_run_capacity 0 ps, ?_⟩
  suffices h : ∀ (l : List Int) (t : fifo_table), t.capacity = 0 → t.pageQueue = [] →
      (l.foldl (fun t p => (t.load_page p).2) t).pageQueue = [] by
    exact h ps (fifo_table.init 0) rfl rfl
  intro l
  induction l with
  | nil => intro t _ hq; exact hq
  | cons q l ih =>
    intro t hc hq
    rw [List.foldl_cons]
    exact ih _ (by rw [fifo_load_page_capacity]; exact hc)
      (by rw [fifo_load_page_cap0 t q hc hq])

theorem lru_run_cap0 (ps : List Int) :
    (lru_run 0 ps).capacity = 0 ∧ (lru_run 0 ps).pageMap = [] := by
  refine ⟨lru_run_capacity 0 ps, ?_⟩
  suffices h : ∀ (l : List Int) (t : lru_table), t.capacity = 0 → t.pageMap = [] →
      (l.foldl (fun t p => (t.load_page p).2) t).pageMap = [] by
    exact h ps (lru_table.init 0) rfl rfl
  intro l
  induction l with
  | nil => intro t _ hm; exact hm
  | cons q l ih =>
    intro t hc hm
    rw [List.foldl_cons]
    exact ih _ (by rw [lru_load_page_capacity]; exact hc)
      (by rw [lru_load_page_cap0 t q hc hm])

theorem fifo_foldl_count_mono (l : List Int) (t : fifo_table) :
    t.page_fault_count ≤ (l.foldl (fun t p => (t.load_page p).2) t).page_fault_count := by
  induction l generalizing t with
  | nil => exact le_refl _
  | cons q l ih =>
    rw [List.foldl_cons]
    refine le_trans ?_ (ih _)
    rw [fifo_load_page_count]
    split <;> omega

theorem lru_foldl_count_mono (l : List Int) (t : lru_table) :
    t.page_fault_count ≤ (l.foldl (fun t p => (t.load_page p).2) t).page_fault_count := by
  induction l generalizing t with
  | nil => exact le_refl _
  | cons q l ih =>
    rw [List.foldl_cons]
    refine le_trans ?_ (ih _)
    rw [lru_load_page_count]
    split <;> omega

/-- C1: for every capacity and every sequence of `load_page` calls on a
`fifo_table` or `lru_table` instance, the number of resident pages returned
by `get_page_list()` is at most the capacity fixed at construction, after
every call. -/
theorem C1_capacity_invariant (cap : Nat) (ps : List Int) :
    (fifo_run cap ps).get_page_list.length ≤ cap ∧
      (lru_run cap ps).get_page_list.length ≤ cap := by
  constructor
  · exact fifo_run_len cap ps
  · have h := (lru_run_inv cap ps).2.2.2
    rw [lru_run_capacity] at h
    simpa [lru_table.get_page_list] using h

/-- C2: for both tables, `get_page_fault_count()` is non-decreasing across
`load_page` calls, and a single `load_page(p)` call increases it by exactly
1 if `p` was absent from the resident set immediately before the call and
leaves it unchanged otherwise. -/
theorem C2_fault_monotonicity (tf : fifo_table) (tl : lru_table) (p : Int)
    (cap : Nat) (ps qs : List Int) :
    ((tf.load_page p).2).get_page_fault_count =
        tf.get_page_fault_count + (if p ∈ tf.get_page_list then 0 else 1) ∧
      tf.get_page_fault_count ≤ ((tf.load_page p).2).get_page_fault_count ∧
      ((tl.load_page p).2).get_page_fault_count =
        tl.get_page_fault_count + (if p ∈ tl.get_page_list then 0 else 1) ∧
      tl.get_page_fault_count ≤ ((tl.load_page p).2).get_page_fault_count ∧
      (fifo_run cap ps).get_page_fault_count ≤
        (fifo_run cap (ps ++ qs)).get_page_fault_count ∧
      (lru_run cap ps).get_page_fault_count ≤
        (lru_run cap (ps ++ qs)).get_page_fault_count := by
  refine ⟨fifo_load_page_count tf p, ?_, lru_load_page_count tl p, ?_, ?_, ?_⟩
  · rw [show ((tf.load_page p).2).get_page_fault_count =
        ((tf.load_page p).2).page_fault_count from rfl, fifo_load_page_count]
    split <;> simp [fifo_table.get_page_fault_count]
  · rw [show ((tl.load_page p).2).get_page_fault_count =
        ((tl.load_page p).2).page_fault_count from rfl, lru_load_page_count]
    split <;> simp [lru_table.get_page_fault_count]
  · show (fifo_run cap ps).page_fault_count ≤ (fifo_run cap (ps ++ qs)).page_fault_count
    simp only [fifo_run]
    rw [List.foldl_append]
    exact fifo_foldl_count_mono qs (fifo_run cap ps)
  · show (lru_run cap ps).page_fault_count ≤ (lru_run cap (ps ++ qs)).page_fault_count
    simp only [lru_run]
    rw [List.foldl_append]
    exact lru_foldl_count_mono qs (lru_run cap ps)

/-- C3: for every `fifo_table` state in which page `p` is already resident,
`load_page(p)` returns `(false, -1)` (no fault, no eviction) and leaves the
entire state — queue contents and order, and the fault counter — unchanged. -/
theorem C3_fifo_hit_frame (t : fifo_table) (p : Int) (h : p ∈ t.pageQueue) :
    t.load_page p = ((false, -1), t) := by
  unfold fifo_table.load_page
  rw [if_pos h]

theorem C3_fifo_hit_frame_witness :
    (1 : Int) ∈ (fifo_table.mk [1, 2] 3 0).pageQueue ∧
      (fifo_table.mk [1, 2] 3 0).load_page 1 = ((false, -1), fifo_table.mk [1, 2] 3 0) :=
  ⟨by decide, C3_fifo_hit_frame (fifo_table.mk [1, 2] 3 0) 1 (by decide)⟩

/-- C4: for every `fifo_table` state in which `p` is not resident,
`load_page(p)` increments the fault counter, appends `p` to the back of the
sequence, and, exactly when the length then exceeds the capacity, pops and
returns the front (oldest-arrival) entry as the evicted page; in particular
loading `[1,2,3,4]` into a fresh capacity-3 table evicts page 1 on the 4th
load and leaves the resident sequence `[2,3,4]`. -/
theorem C4_fifo_miss (t : fifo_table) (p : Int) (h : p ∉ t.pageQueue) :
    (t.load_page p =
        if t.capacity < t.pageQueue.length + 1 then
          ((true, (t.pageQueue ++ [p]).headD (-1)),
            { t with pageQueue := (t.pageQueue ++ [p]).tail,
                     page_fault_count := t.page_fault_count + 1 })
        else
          ((true, -1),
            { t with pageQueue := t.pageQueue ++ [p],
                     page_fault_count := t.page_fault_count + 1 })) ∧
      ((fifo_run 3 [1, 2, 3]).load_page 4).1 = (true, 1) ∧
      (fifo_run 3 [1, 2, 3, 4]).get_page_list = [2, 3, 4] := by
  refine ⟨?_, by decide, by decide⟩
  unfold fifo_table.load_page
  rw [if_neg h]
  dsimp only []
  rw [show (t.pageQueue ++ [p]).length = t.pageQueue.length + 1 by
    rw [List.length_append, List.length_singleton]]

theorem C4_fifo_miss_witness :
    (7 : Int) ∉ (fifo_table.mk [] 0 0).pageQueue ∧
      ((fifo_table.mk [] 0 0).load_page 7 =
          if (fifo_table.mk [] 0 0).capacity < (fifo_table.mk [] 0 0).pageQueue.length + 1 then
            ((true, (((fifo_table.mk [] 0 0).pageQueue ++ [7]).headD (-1))),
              { fifo_table.mk [] 0 0 with
                  pageQueue := ((fifo_table.mk [] 0 0).pageQueue ++ [7]).tail,
                  page_fault_count := (fifo_table.mk [] 0 0).page_fault_count + 1 })
          else
            ((true, -1),
              { fifo_table.mk [] 0 0 with
                  pageQueue := (fifo_table.mk [] 0 0).pageQueue ++ [7],
                  page_fault_count := (fifo_table.mk [] 0 0).page_fault_count + 1 })) ∧
        ((fifo_run 3 [1, 2, 3]).load_page 4).1 = (true, 1) ∧
        (fifo_run 3 [1, 2, 3, 4]).get_page_list = [2, 3, 4] :=
  ⟨by decide, C4_fifo_miss (fifo_table.mk [] 0 0) 7 (by decide)⟩

/-- C5: loading `[1,2,3,1,4]` into a fresh `lru_table` of capacity 3 yields,
on the 5th load (page 4), a fault whose evicted page is 2 — not 1, whose
recency was reset by the 4th load. -/
theorem C5_lru_recency_eviction :
    ((lru_run 3 [1, 2, 3, 1]).load_page 4).1 = (true, 2) := by
  decide

/-- A helper shared by the hit-behavior claims: a resident page leaves the
`fifo_table` state and result untouched except for returning `(false, -1)`. -/
theorem fifo_load_page_hit (t : fifo_table) (p : Int) (h : p ∈ t.pageQueue) :
    t.load_page p = ((false, -1), t) := by
  unfold fifo_table.load_page
  rw [if_pos h]

/-- C6 fails on the code: after the hit on page 2 in `[1,2,3,2]` at capacity
3, the map is `[(1,4),(2,1),(3,2)]` — no resident page has counter 0 (the
touched page ends at counter 1, since the aging pass increments it too), and
the counters 4,1,2 are not a gap-free consecutive run. -/
theorem C6_counterexample :
    (lru_run 3 [1, 2, 3, 2]).pageMap = [(1, 4), (2, 1), (3, 2)] ∧
      ¬ ∃ kvp ∈ (lru_run 3 [1, 2, 3, 2]).pageMap, kvp.2 = 0 := by
  constructor
  · decide
  · intro ⟨kvp, hm, hz⟩
    rw [show (lru_run 3 [1, 2, 3, 2]).pageMap = [(1, 4), (2, 1), (3, 2)] by decide] at hm
    simp only [List.mem_cons, List.not_mem_nil, or_false] at hm
    rcases hm with h | h | h <;> (subst h; simp at hz)

/-- C6 (amended): after every `load_page(p)` call on a reachable `lru_table`
of capacity at least 1, the just-touched page `p` is resident with recency
counter 1 — the unique minimum (not 0: the aging pass increments the
just-zeroed counter too) — all counters are pairwise distinct with every
other resident counter at least 2, and when an eviction occurs it removes
the entry whose counter is the strict maximum of the aged map. -/
theorem C6_lru_recency_amended (cap : Nat) (ps : List Int) (p : Int)
    (hcap : 1 ≤ cap) :
    ((((lru_run cap ps).load_page p).2).pageMap.map Prod.snd).Nodup ∧
      (p, 1) ∈ (((lru_run cap ps).load_page p).2).pageMap ∧
      (∀ kvp ∈ (((lru_run cap ps).load_page p).2).pageMap, kvp.1 ≠ p → 2 ≤ kvp.2) ∧
      (cap < (lru_step_map p (lru_run cap ps).pageMap).length →
        ∃ e, maxElement (lru_step_map p (lru_run cap ps).pageMap) = some e ∧
          ((lru_run cap ps).load_page p).1.2 = e.1 ∧
          ∀ y ∈ lru_step_map p (lru_run cap ps).pageMap, y ≠ e → y.2 < e.2) := by
  obtain ⟨hkeys, hsnd, hpos, hlen⟩ := lru_run_inv cap ps
  have hcap' := lru_run_capacity cap ps
  set t0 := lru_run cap ps with ht0
  set m' := lru_step_map p t0.pageMap with hm'
  have hk' : (m'.map Prod.fst).Nodup := by
    rw [hm', lru_step_map_keys]
    exact lru_insert_keys_nodup p t0.pageMap hkeys
  have hs' : (m'.map Prod.snd).Nodup :=
    lru_step_map_snd_nodup p t0.pageMap hkeys hsnd hpos
  have hp1 : (p, 1) ∈ m' := lru_step_map_mem_page p t0.pageMap
  have hge2 : ∀ kvp ∈ m', kvp.1 ≠ p → 2 ≤ kvp.2 :=
    lru_step_map_ge_two p t0.pageMap hpos
  by_cases hov : t0.capacity < m'.length
  · have hne : m' ≠ [] := by
      intro hc
      rw [hc] at hov
      simp at hov
    obtain ⟨e, he⟩ := maxElement_isSome hne
    rw [lru_load_page_of_lt t0 p hov e he]
    have hstrict : ∀ y ∈ m', y ≠ e → y.2 < e.2 := maxElement_unique hs' he
    have h2 : 2 ≤ m'.length := by omega
    obtain ⟨z, hz, hzp⟩ := exists_key_ne m' h2 hk' p
    have hz2 : 2 ≤ z.2 := hge2 z hz hzp
    have he2 : 2 ≤ e.2 := le_trans hz2 (maxElement_le he z hz)
    have hep : (p, 1) ≠ e := by
      intro hc
      rw [← hc] at he2
      simp at he2
    refine ⟨?_, ?_, ?_, ?_⟩
    · exact hs'.sublist ((List.erase_sublist e m').map Prod.snd)
    · exact (List.mem_erase_of_ne hep).2 hp1
    · intro kvp hk hkp
      exact hge2 kvp (List.mem_of_mem_erase hk) hkp
    · intro _
      exact ⟨e, he, rfl, hstrict⟩
  · rw [lru_load_page_of_le t0 p hov]
    refine ⟨hs', hp1, hge2, ?_⟩
    intro hcon
    rw [hcap'] at hov
    exact absurd hcon hov

theorem C6_lru_recency_amended_witness :
    (1 : Nat) ≤ 3 ∧
      (((((lru_run 3 [1, 2, 3]).load_page 4).2).pageMap.map Prod.snd).Nodup ∧
        ((4 : Int), (1 : Nat)) ∈ (((lru_run 3 [1, 2, 3]).load_page 4).2).pageMap ∧
        (∀ kvp ∈ (((lru_run 3 [1, 2, 3]).load_page 4).2).pageMap, kvp.1 ≠ 4 → 2 ≤ kvp.2) ∧
        (3 < (lru_step_map 4 (lru_run 3 [1, 2, 3]).pageMap).length →
          ∃ e, maxElement (lru_step_map 4 (lru_run 3 [1, 2, 3]).pageMap) = some e ∧
            ((lru_run 3 [1, 2, 3]).load_page 4).1.2 = e.1 ∧
            ∀ y ∈ lru_step_map 4 (lru_run 3 [1, 2, 3]).pageMap, y ≠ e → y.2 < e.2)) :=
  ⟨by decide, C6_lru_recency_amended 3 [1, 2, 3] 4 (by decide)⟩

/-- C7: on each table independently, loading an already-resident page twice
in a row never changes the fault counter and never evicts: both calls return
`(false, -1)`.  The FIFO and LRU halves carry their own capacity, reference
string and page, so each half is conditioned only on residency in its own
table. -/
theorem C7_idempotent_hit (capf : Nat) (psf : List Int) (pf : Int)
    (capl : Nat) (psl : List Int) (pl : Int)
    (hf : pf ∈ (fifo_run capf psf).get_page_list)
    (hl : pl ∈ (lru_run capl psl).get_page_list) :
    ((fifo_run capf psf).load_page pf = ((false, -1), fifo_run capf psf)) ∧
      ((lru_run capl psl).load_page pl).1 = (false, -1) ∧
      (((lru_run capl psl).load_page pl).2).get_page_fault_count =
        (lru_run capl psl).get_page_fault_count ∧
      ((((lru_run capl psl).load_page pl).2).load_page pl).1 = (false, -1) ∧
      (((((lru_run capl psl).load_page pl).2).load_page pl).2).get_page_fault_count =
        (lru_run capl psl).get_page_fault_count := by
  obtain ⟨hkeys, hsnd, hpos, hlen⟩ := lru_run_inv capl psl
  have hmem : pl ∈ (lru_run capl psl).pageMap.map Prod.fst := hl
  have hfound : mapFound pl (lru_run capl psl).pageMap = true :=
    (mapFound_iff pl (lru_run capl psl).pageMap).mpr hmem
  have h1 := lru_load_page_hit (lru_run capl psl) pl hmem hlen
  have hmem1 : pl ∈ (lru_step_map pl (lru_run capl psl).pageMap).map Prod.fst := by
    rw [lru_step_map_keys_of_found pl (lru_run capl psl).pageMap hfound]
    exact hmem
  have hlen1 : (lru_step_map pl (lru_run capl psl).pageMap).length ≤ (lru_run capl psl).capacity := by
    rw [lru_step_map_length, lru_insert_of_found pl (lru_run capl psl).pageMap hfound]
    exact hlen
  have h2 := lru_load_page_hit
    { lru_run capl psl with pageMap := lru_step_map pl (lru_run capl psl).pageMap } pl hmem1 hlen1
  refine ⟨fifo_load_page_hit _ pf hf, ?_, ?_, ?_, ?_⟩
  · rw [h1]
  · rw [h1]
    rfl
  · rw [h1]
    dsimp only []
    rw [h2]
  · rw [h1]
    dsimp only []
    rw [h2]
    rfl

theorem C7_idempotent_hit_witness :
    ((2 : Int) ∈ (fifo_run 2 [1, 2, 1, 3]).get_page_list ∧
        (1 : Int) ∈ (lru_run 2 [1, 2, 1, 3]).get_page_list) ∧
      (((fifo_run 2 [1, 2, 1, 3]).load_page 2 = ((false, -1), fifo_run 2 [1, 2, 1, 3])) ∧
        ((lru_run 2 [1, 2, 1, 3]).load_page 1).1 = (false, -1) ∧
        (((lru_run 2 [1, 2, 1, 3]).load_page 1).2).get_page_fault_count =
          (lru_run 2 [1, 2, 1, 3]).get_page_fault_count ∧
        ((((lru_run 2 [1, 2, 1, 3]).load_page 1).2).load_page 1).1 = (false, -1) ∧
        (((((lru_run 2 [1, 2, 1, 3]).load_page 1).2).load_page 1).2).get_page_fault_count =
          (lru_run 2 [1, 2, 1, 3]).get_page_fault_count) :=
  ⟨⟨by decide, by decide⟩,
    C7_idempotent_hit 2 [1, 2, 1, 3] 2 2 [1, 2, 1, 3] 1 (by decide) (by decide)⟩

/-- C8: at capacity 0 the resident set is always empty and every
`load_page(p)` on either table faults and immediately self-evicts,
returning `(true, p)` and leaving the resident set empty. -/
theorem C8_zero_capacity (ps : List Int) (p : Int) :
    (fifo_run 0 ps).get_page_list = [] ∧
      ((fifo_run 0 ps).load_page p).1 = (true, p) ∧
      (((fifo_run 0 ps).load_page p).2).get_page_list = [] ∧
      (lru_run 0 ps).get_page_list = [] ∧
      ((lru_run 0 ps).load_page p).1 = (true, p) ∧
      (((lru_run 0 ps).load_page p).2).get_page_list = [] := by
  obtain ⟨hc, hq⟩ := fifo_run_cap0 ps
  obtain ⟨hc', hm⟩ := lru_run_cap0 ps
  rw [fifo_load_page_cap0 _ p hc hq, lru_load_page_cap0 _ p hc' hm]
  refine ⟨hq, rfl, rfl, ?_, rfl, rfl⟩
  show (lru_run 0 ps).pageMap.map Prod.fst = []
  rw [hm]
  rfl

/-- C9: `load_page` on either table is a total function — for every state
and page it computes exactly one result. -/
theorem C9_load_page_total (tf : fifo_table) (tl : lru_table) (p : Int) :
    (∃! r, tf.load_page p = r) ∧ (∃! r, tl.load_page p = r) :=
  ⟨⟨tf.load_page p, rfl, fun _ h => h.symm⟩,
    ⟨tl.load_page p, rfl, fun _ h => h.symm⟩⟩

theorem C9_load_page_total_witness :
    (∃! r, (fifo_table.mk [] 1 0).load_page 5 = r) ∧
      (∃! r, (lru_table.mk [] 1 0).load_page 5 = r) :=
  C9_load_page_total (fifo_table.mk [] 1 0) (lru_table.mk [] 1 0) 5

/-- C10: on every reachable `lru_table` state the recency counters of the
resident pages are pairwise distinct, so the maximum-counter entry chosen
for eviction is unique and the choice cannot depend on the tie-break order
of the `max_element` search. -/
theorem C10_lru_counters_distinct (cap : Nat) (ps : List Int) :
    ((lru_run cap ps).pageMap.map Prod.snd).Nodup ∧
      ∀ x ∈ (lru_run cap ps).pageMap, ∀ y ∈ (lru_run cap ps).pageMap,
        (∀ z ∈ (lru_run cap ps).pageMap, z.2 ≤ x.2) →
        (∀ z ∈ (lru_run cap ps).pageMap, z.2 ≤ y.2) → x = y := by
  obtain ⟨hkeys, hsnd, hpos, hlen⟩ := lru_run_inv cap ps
  refine ⟨hsnd, ?_⟩
  intro x hx y hy hxmax hymax
  exact List.inj_on_of_nodup_map hsnd hx hy (le_antisymm (hymax x hx) (hxmax y hy))

theorem C10_lru_counters_distinct_witness :
    ((lru_run 3 [1, 2, 3]).pageMap.map Prod.snd).Nodup ∧
      ∀ x ∈ (lru_run 3 [1, 2, 3]).pageMap, ∀ y ∈ (lru_run 3 [1, 2, 3]).pageMap,
        (∀ z ∈ (lru_run 3 [1, 2, 3]).pageMap, z.2 ≤ x.2) →
        (∀ z ∈ (lru_run 3 [1, 2, 3]).pageMap, z.2 ≤ y.2) → x = y :=
  C10_lru_counters_distinct 3 [1, 2, 3]
